import Mathlib

/-!
Verification development for the WhisprBar voice-to-text tray application
(`whisprbar.py`).  The components embedded here are the hotkey-binding
parser/serializer, the hotkey listener state machine, the recording-session
controller, and the voice-activity segmentation engine (`apply_vad`).

Modelling conventions:
* Python strings are modelled as `List Char`; `str.strip` / `str.upper` /
  `str.lower` are modelled over ASCII (the canonical modifier and F-key
  names involved are all ASCII).
* NumPy float32 arithmetic is modelled by exact rational arithmetic (`ℚ`);
  `np.sqrt` is modelled by the computable rational square-root
  approximation `ratSqrt`.  No theorem below depends on the numerical
  error of either approximation.
* The WebRTC VAD classifier (`webrtcvad.Vad.is_speech`) is an external C
  library; it is a parameter of the embedding, of type
  `List Int → Option Bool`, where `none` models the classifier raising an
  exception on a frame.
* Fallible code is embedded with `Option`: `apply_vad` returns `none`
  exactly on the path where the Python code would raise an uncaught
  `IndexError` (`voiced_indices[0]` on an empty array).
-/

namespace WhisprBar

/-- Python strings, modelled as character lists. -/
abbrev Str := List Char

/-- Coerce a Lean string literal to the `Str` model. -/
def str (s : String) : Str := s.data

/-- Whitespace test used by `str.strip` (ASCII fragment). -/
def pyIsSpace (c : Char) : Bool :=
  c = ' ' ∨ c = '\t' ∨ c = '\n' ∨ c = '\r' ∨ c = '\x0b' ∨ c = '\x0c'

/-- Left strip: drop leading whitespace. -/
def lstripWs (l : Str) : Str := l.dropWhile pyIsSpace

/-- Right strip: drop trailing whitespace. -/
def rstripWs (l : Str) : Str := (lstripWs l.reverse).reverse

/-- Python `str.strip()`. -/
def pystrip (l : Str) : Str := lstripWs (rstripWs l)

/-- Python `str.upper()` (ASCII fragment). -/
def pyupper (l : Str) : Str := l.map Char.toUpper

/-- Python `str.lower()` (ASCII fragment). -/
def pylower (l : Str) : Str := l.map Char.toLower

/-- Python `binding.split("+")` for the one-character separator `'+'`. -/
def splitPlus : Str → List Str
  | [] => [[]]
  | c :: cs =>
    if c = '+' then [] :: splitPlus cs
    else
      match splitPlus cs with
      | [] => [[c]]
      | p :: ps => (c :: p) :: ps

/-- The four recognized modifier names (keys of `MODIFIER_MAP`). -/
inductive Modifier where
  | CTRL
  | ALT
  | SHIFT
  | SUPER
deriving DecidableEq, Repr

instance : Fintype Modifier :=
  ⟨⟨{.CTRL, .ALT, .SHIFT, .SUPER}, by decide⟩, fun m => by cases m <;> decide⟩

/-- Canonical name of a modifier, as it appears in `MODIFIER_MAP`. -/
def modifierName : Modifier → Str
  | .CTRL => str "CTRL"
  | .ALT => str "ALT"
  | .SHIFT => str "SHIFT"
  | .SUPER => str "SUPER"

/-- `part.upper() in MODIFIER_MAP` membership test, returning the matched
modifier (the Python code keeps the uppercased name; we keep the tag). -/
def strToModifier (l : Str) : Option Modifier :=
  if l = str "CTRL" then some .CTRL
  else if l = str "ALT" then some .ALT
  else if l = str "SHIFT" then some .SHIFT
  else if l = str "SUPER" then some .SUPER
  else none

/-- `MODIFIER_ORDER` sort keys. -/
def MODIFIER_ORDER : Modifier → Nat
  | .CTRL => 0
  | .SHIFT => 1
  | .ALT => 2
  | .SUPER => 3

/-- `sorted(modifiers, key=lambda x: MODIFIER_ORDER.get(x, 99))`: the sort
keys of the four modifiers are distinct, so sorting a set of them yields
the canonical enumeration filtered to the members. -/
def sortedModifiers (ms : Finset Modifier) : List Modifier :=
  [Modifier.CTRL, Modifier.SHIFT, Modifier.ALT, Modifier.SUPER].filter (· ∈ ms)

/-- The `FKEYS` table: names `F1`..`F24` (built from `range(1, 25)` over the
external keyboard library's function keys). -/
def FKEYS : List Str :=
  [str "F1", str "F2", str "F3", str "F4", str "F5", str "F6",
   str "F7", str "F8", str "F9", str "F10", str "F11", str "F12",
   str "F13", str "F14", str "F15", str "F16", str "F17", str "F18",
   str "F19", str "F20", str "F21", str "F22", str "F23", str "F24"]

/-- A `HotkeyBinding = Tuple[frozenset[str], str]`: a frozenset of
modifier names and a key token. -/
structure HotkeyBinding where
  modifiers : Finset Modifier
  key_token : Str
deriving DecidableEq

/-- The fallback binding `(frozenset(), "F9")`. -/
def fallbackBinding : HotkeyBinding := ⟨∅, str "F9"⟩

/-- `normalize_key_token`: strip and uppercase; accept F-key names and
single characters, otherwise `None`. -/
def normalize_key_token (token : Str) : Option Str :=
  let token := pyupper (pystrip token)
  if token = [] then none
  else if token ∈ FKEYS then some token
  else if token.length = 1 then some token
  else none

/-- `parse_hotkey`: split on `+`, strip parts, drop empties; the last part
is the key token (via `normalize_key_token`), the preceding parts are
matched case-insensitively against the modifier names. -/
def parse_hotkey (binding : Str) : HotkeyBinding :=
  let binding := pystrip binding
  if binding = [] then fallbackBinding
  else
    let parts := ((splitPlus binding).map pystrip).filter (· ≠ [])
    match parts.getLast? with
    | none => fallbackBinding
    | some lastPart =>
      match normalize_key_token lastPart with
      | none => fallbackBinding
      | some key_token =>
        let modifiers := (parts.dropLast.filterMap
          (fun part => strToModifier (pyupper part))).toFinset
        ⟨modifiers, key_token⟩

/-- Python `"+".join(parts)`. -/
def joinPlus : List Str → Str
  | [] => []
  | [p] => p
  | p :: ps => p ++ '+' :: joinPlus ps

/-- `key_to_config_string` on a binding tuple: modifiers sorted by
`MODIFIER_ORDER`, then the uppercased token, joined with `+`. -/
def key_to_config_string (b : HotkeyBinding) : Str :=
  joinPlus
    ((sortedModifiers b.modifiers).map modifierName ++ [pyupper b.key_token])

/-- A binding is valid when its key token is a fixed point of
`normalize_key_token` (stored uppercase, stripped, and accepted: an F-key
name or a single printable character).  The modifiers are a subset of the
four recognized names by the type of `HotkeyBinding.modifiers`. -/
def ValidBinding (b : HotkeyBinding) : Prop :=
  normalize_key_token b.key_token = some b.key_token

instance (b : HotkeyBinding) : Decidable (ValidBinding b) := by
  unfold ValidBinding; infer_instance

/-! ### Lemmas about the string primitives -/

lemma dropWhile_eq_self_of_head (p : Char → Bool) (l : Str)
    (h : ∀ c, l.head? = some c → p c = false) : l.dropWhile p = l := by
  cases l with
  | nil => rfl
  | cons a as => simp [List.dropWhile_cons, h a rfl]

lemma pystrip_eq_self_of_ends (l : Str)
    (h1 : ∀ c, l.head? = some c → pyIsSpace c = false)
    (h2 : ∀ c, l.getLast? = some c → pyIsSpace c = false) :
    pystrip l = l := by
  have hr : rstripWs l = l := by
    unfold rstripWs lstripWs
    rw [dropWhile_eq_self_of_head _ _ (by simpa [List.head?_reverse] using h2),
      List.reverse_reverse]
  unfold pystrip
  rw [hr]
  exact dropWhile_eq_self_of_head _ _ h1

lemma splitPlus_of_no_plus (p : Str) (h : '+' ∉ p) : splitPlus p = [p] := by
  induction p with
  | nil => rfl
  | cons c cs ih =>
    have hc : c ≠ '+' := fun hcp => h (hcp ▸ List.mem_cons_self c cs)
    have ihp : splitPlus cs = [cs] := ih (fun hm => h (List.mem_cons_of_mem c hm))
    simp [splitPlus, hc, ihp]

lemma splitPlus_append (p rest : Str) (h : '+' ∉ p) :
    splitPlus (p ++ '+' :: rest) = p :: splitPlus rest := by
  induction p with
  | nil => simp [splitPlus]
  | cons c cs ih =>
    have hc : c ≠ '+' := fun hcp => h (hcp ▸ List.mem_cons_self c cs)
    have ihp := ih (fun hm => h (List.mem_cons_of_mem c hm))
    simp [splitPlus, hc, List.append_eq, ihp]

lemma splitPlus_joinPlus (parts : List Str) (hne : parts ≠ [])
    (hp : ∀ p ∈ parts, '+' ∉ p) :
    splitPlus (joinPlus parts) = parts := by
  induction parts with
  | nil => exact absurd rfl hne
  | cons p ps ih =>
    cases ps with
    | nil =>
      simpa [joinPlus] using splitPlus_of_no_plus p (hp p (List.mem_cons_self p []))
    | cons q qs =>
      have h1 : '+' ∉ p := hp p (List.mem_cons_self _ _)
      have h2 : ∀ r ∈ q :: qs, '+' ∉ r := fun r hr => hp r (List.mem_cons_of_mem p hr)
      simp only [joinPlus]
      rw [splitPlus_append p _ h1, ih (by simp) h2]

lemma joinPlus_head? (p : Str) (ps : List Str) (hp : p ≠ []) :
    (joinPlus (p :: ps)).head? = p.head? := by
  cases ps with
  | nil => rfl
  | cons q qs =>
    simp only [joinPlus, List.head?_append]
    cases p with
    | nil => exact absurd rfl hp
    | cons a as => rfl

lemma joinPlus_cons_of_ne_nil (p : Str) (ps : List Str) (h : ps ≠ []) :
    joinPlus (p :: ps) = p ++ '+' :: joinPlus ps := by
  cases ps with
  | nil => exact absurd rfl h
  | cons q qs => rfl

lemma joinPlus_concat_ne_nil (ps : List Str) (t : Str) (ht : t ≠ []) :
    joinPlus (ps ++ [t]) ≠ [] := by
  cases ps with
  | nil => simpa [joinPlus] using ht
  | cons q qs =>
    rw [List.cons_append, joinPlus_cons_of_ne_nil q _ (by simp)]
    simp

lemma joinPlus_getLast?_concat (ps : List Str) (t : Str) (ht : t ≠ []) :
    (joinPlus (ps ++ [t])).getLast? = t.getLast? := by
  induction ps with
  | nil => rfl
  | cons q qs ih =>
    have hnn : joinPlus (qs ++ [t]) ≠ [] := joinPlus_concat_ne_nil qs t ht
    rw [List.cons_append, joinPlus_cons_of_ne_nil q _ (by simp), List.getLast?_append]
    have h2 : ('+' :: joinPlus (qs ++ [t])).getLast? = (joinPlus (qs ++ [t])).getLast? := by
      cases hJ : joinPlus (qs ++ [t]) with
      | nil => exact absurd hJ hnn
      | cons a as => rw [List.getLast?_cons_cons]
    rw [h2, ih]
    cases htl : t.getLast? with
    | none => exact absurd (List.getLast?_eq_none_iff.mp htl) ht
    | some x => rfl

/-! ### Facts about valid key tokens -/

lemma valid_token_cases (token : Str) (h : normalize_key_token token = some token) :
    token ∈ FKEYS ∨
      (∃ c : Char, token = [c] ∧ pyIsSpace c = false ∧ c.toUpper = c) := by
  unfold normalize_key_token at h
  by_cases hnil : pyupper (pystrip token) = []
  · rw [if_pos hnil] at h
    exact absurd h (by simp)
  rw [if_neg hnil] at h
  by_cases hfk : pyupper (pystrip token) ∈ FKEYS
  · rw [if_pos hfk] at h
    exact Or.inl ((Option.some.inj h) ▸ hfk)
  rw [if_neg hfk] at h
  by_cases hlen : (pyupper (pystrip token)).length = 1
  · rw [if_pos hlen] at h
    have htok : pyupper (pystrip token) = token := Option.some.inj h
    have hlen' : token.length = 1 := htok ▸ hlen
    rcases List.length_eq_one.mp hlen' with ⟨c, hc⟩
    subst hc
    by_cases hws : pyIsSpace c = true
    · -- a whitespace character would strip to the empty token
      exfalso
      have hstrip : pystrip [c] = [] := by
        simp [pystrip, rstripWs, lstripWs, List.dropWhile_cons, hws]
      rw [hstrip] at htok
      simp [pyupper] at htok
    · simp only [Bool.not_eq_true] at hws
      have hstrip : pystrip [c] = [c] := by
        simp [pystrip, rstripWs, lstripWs, List.dropWhile_cons, hws]
      rw [hstrip] at htok
      refine Or.inr ⟨c, rfl, hws, ?_⟩
      simpa [pyupper] using htok
  · rw [if_neg hlen] at h
    exact absurd h (by simp)

lemma valid_token_facts (token : Str) (hv : normalize_key_token token = some token)
    (hplus : token ≠ str "+") :
    pystrip token = token ∧ pyupper token = token ∧ '+' ∉ token ∧ token ≠ [] ∧
      token.head?.all (fun c => !pyIsSpace c) = true ∧
      token.getLast?.all (fun c => !pyIsSpace c) = true := by
  rcases valid_token_cases token hv with hfk | ⟨c, rfl, hws, hup⟩
  · fin_cases hfk <;> exact (by decide)
  · have hc : c ≠ '+' := fun hh => hplus (by rw [hh]; rfl)
    refine ⟨?_, ?_, ?_, by simp, ?_, ?_⟩
    · simp [pystrip, rstripWs, lstripWs, List.dropWhile_cons, hws]
    · simp [pyupper, hup]
    · simp only [List.mem_singleton]
      exact fun h => hc h.symm
    · simp [hws]
    · simp [hws]

lemma modifierName_facts (m : Modifier) :
    pystrip (modifierName m) = modifierName m ∧
      pyupper (modifierName m) = modifierName m ∧
      strToModifier (pyupper (modifierName m)) = some m ∧
      '+' ∉ modifierName m ∧ modifierName m ≠ [] ∧
      (modifierName m).head?.all (fun c => !pyIsSpace c) = true := by
  cases m <;> exact (by decide)

lemma filterMap_modifierName (l : List Modifier) :
    (l.map modifierName).filterMap (fun part => strToModifier (pyupper part)) = l := by
  induction l with
  | nil => rfl
  | cons m rest ih =>
    simp [List.filterMap_cons, (modifierName_facts m).2.2.1, ih]

lemma toFinset_sortedModifiers (ms : Finset Modifier) :
    (sortedModifiers ms).toFinset = ms := by
  ext x
  simp only [sortedModifiers, List.mem_toFinset, List.mem_filter, decide_eq_true_eq]
  constructor
  · rintro ⟨-, h⟩
    exact h
  · intro h
    exact ⟨by cases x <;> simp, h⟩

lemma config_string_parts_facts (ms : Finset Modifier) (token : Str)
    (hstrip : pystrip token = token) (hne : token ≠ []) (hplus : '+' ∉ token) :
    ∀ p ∈ (sortedModifiers ms).map modifierName ++ [token],
      '+' ∉ p ∧ pystrip p = p ∧ p ≠ [] := by
  intro p hp
  rcases List.mem_append.mp hp with hmod | htok
  · rcases List.mem_map.mp hmod with ⟨m, -, rfl⟩
    obtain ⟨h1, -, -, h4, h5, -⟩ := modifierName_facts m
    exact ⟨h4, h1, h5⟩
  · rw [List.mem_singleton.mp htok]
    exact ⟨hplus, hstrip, hne⟩

lemma pystrip_config_string (ms : Finset Modifier) (token : Str)
    (hne : token ≠ [])
    (hhead : token.head?.all (fun c => !pyIsSpace c) = true)
    (hlast : token.getLast?.all (fun c => !pyIsSpace c) = true) :
    pystrip (joinPlus ((sortedModifiers ms).map modifierName ++ [token]))
      = joinPlus ((sortedModifiers ms).map modifierName ++ [token]) := by
  apply pystrip_eq_self_of_ends
  · intro c hc
    cases hsm : (sortedModifiers ms).map modifierName with
    | nil =>
      rw [hsm, List.nil_append, joinPlus_head? token [] hne] at hc
      rw [hc] at hhead
      simpa using hhead
    | cons q qs =>
      have hqne : q ≠ [] := by
        rcases List.mem_map.mp (hsm ▸ List.mem_cons_self q qs) with ⟨m, -, rfl⟩
        exact (modifierName_facts m).2.2.2.2.1
      rw [hsm, List.cons_append, joinPlus_head? q _ hqne] at hc
      have hqh : q.head?.all (fun c => !pyIsSpace c) = true := by
        rcases List.mem_map.mp (hsm ▸ List.mem_cons_self q qs) with ⟨m, -, rfl⟩
        exact (modifierName_facts m).2.2.2.2.2
      rw [hc] at hqh
      simpa using hqh
  · intro c hc
    rw [joinPlus_getLast?_concat _ token hne] at hc
    rw [hc] at hlast
    simpa using hlast

/-- C2 (amended): the `parse ∘ to_config_string` round-trip holds for every
valid binding whose key token is not the single character `"+"` (the join
separator).  See `hotkey_roundtrip_C2_cex` for the `"+"` counterexample. -/
theorem hotkey_roundtrip_amended_C2 (b : HotkeyBinding)
    (hv : ValidBinding b) (hplus : b.key_token ≠ str "+") :
    parse_hotkey (key_to_config_string b) = b := by
  obtain ⟨ms, token⟩ := b
  unfold ValidBinding at hv
  obtain ⟨hstrip, hupper, hplusmem, hne, hhead, hlast⟩ :=
    valid_token_facts token hv hplus
  have hpartsne : (sortedModifiers ms).map modifierName ++ [token] ≠ [] := by simp
  have hpfacts := config_string_parts_facts ms token hstrip hne hplusmem
  have hJ : key_to_config_string ⟨ms, token⟩
      = joinPlus ((sortedModifiers ms).map modifierName ++ [token]) := by
    unfold key_to_config_string
    rw [show pyupper token = token from hupper]
  have hJstrip := pystrip_config_string ms token hne hhead hlast
  have hJne : joinPlus ((sortedModifiers ms).map modifierName ++ [token]) ≠ [] :=
    joinPlus_concat_ne_nil _ token hne
  have hsplit : splitPlus (joinPlus ((sortedModifiers ms).map modifierName ++ [token]))
      = (sortedModifiers ms).map modifierName ++ [token] :=
    splitPlus_joinPlus _ hpartsne (fun p hp => (hpfacts p hp).1)
  have hparts : ((((sortedModifiers ms).map modifierName ++ [token])).map pystrip).filter
        (· ≠ []) = (sortedModifiers ms).map modifierName ++ [token] := by
    rw [List.map_congr_left (fun p hp => (hpfacts p hp).2.1)]
    simp only [List.map_id']
    exact List.filter_eq_self.mpr (fun p hp => by simp [(hpfacts p hp).2.2])
  rw [hJ]
  unfold parse_hotkey
  simp only [hJstrip, if_neg hJne, hsplit, hparts, List.getLast?_concat,
    List.dropLast_concat, hv, filterMap_modifierName, toFinset_sortedModifiers]

/-- C2 counterexample: the binding with empty modifiers and key token `"+"`
is valid (a single printable character, a fixed point of normalization),
but its config string `"+"` parses back to the fallback binding, not to
itself. -/
theorem hotkey_roundtrip_C2_cex :
    ValidBinding ⟨∅, str "+"⟩ ∧
      parse_hotkey (key_to_config_string ⟨∅, str "+"⟩) ≠ (⟨∅, str "+"⟩ : HotkeyBinding) := by
  decide

theorem hotkey_roundtrip_amended_C2_witness :
    parse_hotkey (key_to_config_string ⟨{Modifier.CTRL, Modifier.ALT}, str "F9"⟩)
      = (⟨{Modifier.CTRL, Modifier.ALT}, str "F9"⟩ : HotkeyBinding) :=
  hotkey_roundtrip_amended_C2 _ (by decide) (by decide)

/-- The final token of a hotkey string, exactly as `parse_hotkey` computes
it: strip, split on `+`, strip the parts, drop empties, take the last. -/
def finalTokenOf (s : Str) : Option Str :=
  (((splitPlus (pystrip s)).map pystrip).filter (· ≠ [])).getLast?

/-- C9: `parse_hotkey ""`, `parse_hotkey "   "`, `parse_hotkey "CTRL+"`
all return the fallback binding `(frozenset(), "F9")`; every input whose
final token is rejected by `normalize_key_token` (not `F1`..`F24` and not
a single character) parses to the fallback; and `parse_hotkey` is total
(the code has no raising operation, which the embedding reflects by
returning a binding for every input). -/
theorem hotkey_fallback_C9 :
    parse_hotkey (str "") = fallbackBinding ∧
      parse_hotkey (str "   ") = fallbackBinding ∧
      parse_hotkey (str "CTRL+") = fallbackBinding ∧
      (∀ s : Str, (∀ t, finalTokenOf s = some t → normalize_key_token t = none) →
        parse_hotkey s = fallbackBinding) ∧
      (∀ s : Str, ∃ b : HotkeyBinding, parse_hotkey s = b) := by
  refine ⟨by decide, by decide, by decide, ?_, fun s => ⟨parse_hotkey s, rfl⟩⟩
  intro s h
  unfold parse_hotkey
  by_cases hstrip : pystrip s = []
  · simp [hstrip]
  · simp only [if_neg hstrip]
    cases hlast : (((splitPlus (pystrip s)).map pystrip).filter (· ≠ [])).getLast? with
    | none => simp [hlast]
    | some t =>
      have hnorm : normalize_key_token t = none := h t (by rw [finalTokenOf, hlast])
      simp [hlast, hnorm]

theorem hotkey_fallback_C9_witness :
    parse_hotkey (str "CTRL+XYZ") = fallbackBinding := by
  refine hotkey_fallback_C9.2.2.2.1 (str "CTRL+XYZ") ?_
  intro t ht
  have h2 : finalTokenOf (str "CTRL+XYZ") = some (str "XYZ") := by decide
  rw [h2] at ht
  rw [← Option.some.inj ht]
  decide

/-! ## Mask post-processing: `_drop_short_runs` -/

/-- `np.flatnonzero(mask)`: the ascending list of indices of `True`
entries. -/
def flatnonzero (mask : List Bool) : List Nat :=
  (List.range mask.length).filter (fun i => mask.getD i false)

/-- `cleaned[start : prev + 1] = False`: clear positions `s ≤ i ≤ e`. -/
def clearRange (l : List Bool) (s e : Nat) : List Bool :=
  l.mapIdx (fun i b => if s ≤ i ∧ i ≤ e then false else b)

/-- The index-walking loop of `_drop_short_runs`: `start`/`prev`/`count`
track the current run of consecutive `True` indices; a run shorter than
`min_len` is cleared when it ends (and once more after the loop). -/
def dropShortRunsLoop (minLen : Int) :
    List Bool → Nat → Nat → Nat → List Nat → List Bool
  | cleaned, start, prev, count, [] =>
    if (count : Int) < minLen then clearRange cleaned start prev else cleaned
  | cleaned, start, prev, count, val :: rest =>
    if val = prev + 1 then
      dropShortRunsLoop minLen cleaned start val (count + 1) rest
    else
      let cleaned' :=
        if (count : Int) < minLen then clearRange cleaned start prev else cleaned
      dropShortRunsLoop minLen cleaned' val val 1 rest

/-- `_drop_short_runs(mask, min_len)`. -/
def _drop_short_runs (mask : List Bool) (min_len : Int) : List Bool :=
  if min_len ≤ 1 then mask
  else
    match flatnonzero mask with
    | [] => mask
    | i :: rest => dropShortRunsLoop min_len mask i i 1 rest

/-- Position `i` lies inside a `true` run of length at least `k`. -/
def HasRun (l : List Bool) (k : Int) (i : Nat) : Prop :=
  ∃ a b : Nat, a ≤ i ∧ i ≤ b ∧ k ≤ (b : Int) + 1 - (a : Int) ∧
    ∀ j : Nat, a ≤ j → j ≤ b → l.getD j false = true

lemma clearRange_getD (l : List Bool) (s e i : Nat) :
    (clearRange l s e).getD i false
      = if s ≤ i ∧ i ≤ e then false else l.getD i false := by
  unfold clearRange
  rw [List.getD_eq_getElem?_getD, List.getElem?_mapIdx, List.getD_eq_getElem?_getD]
  cases h : l[i]? with
  | none => split <;> simp
  | some b => split <;> simp

lemma clearRange_length (l : List Bool) (s e : Nat) :
    (clearRange l s e).length = l.length := by
  unfold clearRange
  exact List.length_mapIdx

lemma clearRange_subset (l : List Bool) (s e i : Nat)
    (h : (clearRange l s e).getD i false = true) : l.getD i false = true := by
  rw [clearRange_getD] at h
  split at h
  · exact absurd h (by simp)
  · exact h

lemma getD_true_lt_length (l : List Bool) (i : Nat)
    (h : l.getD i false = true) : i < l.length := by
  by_contra hlen
  rw [List.getD_eq_getElem?_getD, List.getElem?_eq_none (by omega)] at h
  simp at h

lemma flatnonzero_mem (mask : List Bool) (j : Nat) :
    j ∈ flatnonzero mask ↔ mask.getD j false = true := by
  unfold flatnonzero
  rw [List.mem_filter, List.mem_range]
  constructor
  · exact fun h => h.2
  · exact fun h => ⟨getD_true_lt_length mask j h, h⟩

lemma flatnonzero_pairwise (mask : List Bool) :
    (flatnonzero mask).Pairwise (· < ·) :=
  (List.pairwise_lt_range mask.length).filter _

lemma dropShortRunsLoop_subset (minLen : Int) (rest : List Nat) :
    ∀ (cleaned : List Bool) (start prev count i : Nat),
      (dropShortRunsLoop minLen cleaned start prev count rest).getD i false = true →
      cleaned.getD i false = true := by
  induction rest with
  | nil =>
    intro cleaned start prev count i h
    unfold dropShortRunsLoop at h
    split at h
    · exact clearRange_subset _ _ _ _ h
    · exact h
  | cons val rest ih =>
    intro cleaned start prev count i h
    unfold dropShortRunsLoop at h
    split at h
    · exact ih _ _ _ _ _ h
    · have h2 := ih _ _ _ _ _ h
      split at h2
      · exact clearRange_subset _ _ _ _ h2
      · exact h2

/-- Invariant-carrying correctness lemma for the run-clearing loop: given
that `[start, prev]` is the current (still uncleared) run, that the
remaining true indices are exactly `rest`, and that every true position
below `start` already lies in a long-enough finished run, every true
position of the final result lies in a run of length at least `minLen`. -/
lemma dropShortRunsLoop_runs (minLen : Int) (rest : List Nat) :
    ∀ (cleaned : List Bool) (start prev count : Nat),
      count = prev + 1 - start →
      start ≤ prev →
      prev < cleaned.length →
      (∀ j, start ≤ j → j ≤ prev → cleaned.getD j false = true) →
      (∀ j, prev < j → (cleaned.getD j false = true ↔ j ∈ rest)) →
      (prev :: rest).Pairwise (· < ·) →
      (∀ i, i < start → cleaned.getD i false = true →
        ∃ a b : Nat, a ≤ i ∧ i ≤ b ∧ b < start ∧
          minLen ≤ (b : Int) + 1 - (a : Int) ∧
          ∀ j, a ≤ j → j ≤ b → cleaned.getD j false = true) →
      ∀ i, (dropShortRunsLoop minLen cleaned start prev count rest).getD i false = true →
        HasRun (dropShortRunsLoop minLen cleaned start prev count rest) minLen i := by
  induction rest with
  | nil =>
    intro cleaned start prev count hcnt hsp hlen I2 I3 _ I5 i hi
    unfold dropShortRunsLoop at hi ⊢
    by_cases hc : (count : Int) < minLen
    · rw [if_pos hc] at hi ⊢
      rw [clearRange_getD] at hi
      split at hi
      · exact absurd hi (by simp)
      · rename_i hnotin
        by_cases hlt : i < start
        · obtain ⟨a, b, hai, hib, hbs, hk, hall⟩ := I5 i hlt hi
          refine ⟨a, b, hai, hib, hk, fun j haj hjb => ?_⟩
          rw [clearRange_getD, if_neg (by omega)]
          exact hall j haj hjb
        · exact absurd ((I3 i (by omega)).mp hi) (List.not_mem_nil i)
    · rw [if_neg hc] at hi ⊢
      by_cases hlt : i < start
      · obtain ⟨a, b, hai, hib, hbs, hk, hall⟩ := I5 i hlt hi
        exact ⟨a, b, hai, hib, hk, hall⟩
      · by_cases hle : i ≤ prev
        · exact ⟨start, prev, by omega, hle, by omega, I2⟩
        · exact absurd ((I3 i (by omega)).mp hi) (List.not_mem_nil i)
  | cons val rest ih =>
    intro cleaned start prev count hcnt hsp hlen I2 I3 hpw I5 i hi
    have hpv : prev < val := List.rel_of_pairwise_cons hpw (List.mem_cons_self val rest)
    have hvtrue : cleaned.getD val false = true :=
      (I3 val hpv).mpr (List.mem_cons_self val rest)
    have hvlen : val < cleaned.length := getD_true_lt_length _ _ hvtrue
    have hpw' : (val :: rest).Pairwise (· < ·) := hpw.of_cons
    have hvrest : ∀ x ∈ rest, val < x := fun x hx => List.rel_of_pairwise_cons hpw' hx
    unfold dropShortRunsLoop at hi ⊢
    by_cases heq : val = prev + 1
    · rw [if_pos heq] at hi ⊢
      have I2' : ∀ j, start ≤ j → j ≤ val → cleaned.getD j false = true := by
        intro j h1 h2
        by_cases hj : j ≤ prev
        · exact I2 j h1 hj
        · have hjv : j = val := by omega
          rw [hjv]
          exact hvtrue
      have I3' : ∀ j, val < j → (cleaned.getD j false = true ↔ j ∈ rest) := by
        intro j hj
        rw [I3 j (by omega)]
        constructor
        · intro hmem
          rcases List.mem_cons.mp hmem with h | h
          · omega
          · exact h
        · exact fun h => List.mem_cons_of_mem val h
      exact ih cleaned start val (count + 1) (by omega) (by omega) hvlen I2' I3' hpw' I5 i hi
    · rw [if_neg heq] at hi ⊢
      set cln := if (count : Int) < minLen then clearRange cleaned start prev else cleaned
        with hcln
      have hclen : cln.length = cleaned.length := by
        rw [hcln]
        split
        · exact clearRange_length _ _ _
        · rfl
      have hagree : ∀ j, j < start ∨ prev < j → cln.getD j false = cleaned.getD j false := by
        intro j hj
        rw [hcln]
        split
        · rw [clearRange_getD, if_neg (by omega)]
        · rfl
      have hvtrue' : cln.getD val false = true := by
        rw [hagree val (Or.inr hpv)]
        exact hvtrue
      have I2' : ∀ j, val ≤ j → j ≤ val → cln.getD j false = true := by
        intro j h1 h2
        have : j = val := by omega
        rw [this]
        exact hvtrue'
      have I3' : ∀ j, val < j → (cln.getD j false = true ↔ j ∈ rest) := by
        intro j hj
        rw [hagree j (Or.inr (by omega)), I3 j (by omega)]
        constructor
        · intro hmem
          rcases List.mem_cons.mp hmem with h | h
          · omega
          · exact h
        · exact fun h => List.mem_cons_of_mem val h
      have I5' : ∀ i', i' < val → cln.getD i' false = true →
          ∃ a b : Nat, a ≤ i' ∧ i' ≤ b ∧ b < val ∧
            minLen ≤ (b : Int) + 1 - (a : Int) ∧
            ∀ j, a ≤ j → j ≤ b → cln.getD j false = true := by
        intro i' hi' htrue
        by_cases hlt : i' < start
        · have htc : cleaned.getD i' false = true := by
            rw [← hagree i' (Or.inl hlt)]
            exact htrue
          obtain ⟨a, b, hai, hib, hbs, hk, hall⟩ := I5 i' hlt htc
          refine ⟨a, b, hai, hib, by omega, hk, fun j haj hjb => ?_⟩
          rw [hagree j (Or.inl (by omega))]
          exact hall j haj hjb
        · by_cases hle : i' ≤ prev
          · -- inside the just-finished run: it must have been kept
            by_cases hc : (count : Int) < minLen
            · exfalso
              rw [hcln, if_pos hc, clearRange_getD, if_pos (by omega)] at htrue
              exact absurd htrue (by simp)
            · refine ⟨start, prev, by omega, hle, by omega, by omega, ?_⟩
              intro j haj hjb
              rw [hcln, if_neg hc]
              exact I2 j haj hjb
          · -- between the finished run and `val`: no true positions
            exfalso
            have htc : cleaned.getD i' false = true := by
              rw [← hagree i' (Or.inr (by omega))]
              exact htrue
            rcases List.mem_cons.mp ((I3 i' (by omega)).mp htc) with h | h
            · omega
            · exact absurd (hvrest i' h) (by omega)
      exact ih cln val val 1 (by omega) (le_refl val) (by omega) I2' I3' hpw' I5' i hi

lemma dropShortRunsLoop_length (minLen : Int) (rest : List Nat) :
    ∀ (cleaned : List Bool) (start prev count : Nat),
      (dropShortRunsLoop minLen cleaned start prev count rest).length
        = cleaned.length := by
  induction rest with
  | nil =>
    intro cleaned start prev count
    unfold dropShortRunsLoop
    split
    · exact clearRange_length _ _ _
    · rfl
  | cons val rest ih =>
    intro cleaned start prev count
    unfold dropShortRunsLoop
    split
    · exact ih _ _ _ _
    · rw [ih]
      split
      · exact clearRange_length _ _ _
      · rfl

/-- C3: `_drop_short_runs(mask, k)` preserves the mask length, never turns
a `false` position `true` (the output's true set is a subset of the
input's), and every surviving `true` position lies in a `true` run of
length at least `k`. -/
theorem drop_short_runs_C3 (mask : List Bool) (k : Int) :
    (_drop_short_runs mask k).length = mask.length ∧
      (∀ i, (_drop_short_runs mask k).getD i false = true →
        mask.getD i false = true) ∧
      (∀ i, (_drop_short_runs mask k).getD i false = true →
        HasRun (_drop_short_runs mask k) k i) := by
  unfold _drop_short_runs
  by_cases hk : k ≤ 1
  · rw [if_pos hk]
    refine ⟨rfl, fun i h => h, fun i h => ⟨i, i, le_refl i, le_refl i, by omega, ?_⟩⟩
    intro j h1 h2
    have : j = i := by omega
    rw [this]
    exact h
  · rw [if_neg hk]
    cases hfz : flatnonzero mask with
    | nil =>
      refine ⟨rfl, fun i h => h, fun i h => ?_⟩
      exfalso
      have hm := (flatnonzero_mem mask i).mpr h
      rw [hfz] at hm
      exact List.not_mem_nil i hm
    | cons i0 rest =>
      have hpw : (i0 :: rest).Pairwise (· < ·) := hfz ▸ flatnonzero_pairwise mask
      have hi0 : mask.getD i0 false = true :=
        (flatnonzero_mem mask i0).mp (hfz ▸ List.mem_cons_self i0 rest)
      have hrest : ∀ x ∈ rest, i0 < x :=
        fun x hx => List.rel_of_pairwise_cons hpw hx
      have I3 : ∀ j, i0 < j → (mask.getD j false = true ↔ j ∈ rest) := by
        intro j hj
        rw [← flatnonzero_mem, hfz]
        constructor
        · intro hmem
          rcases List.mem_cons.mp hmem with h | h
          · omega
          · exact h
        · exact fun h => List.mem_cons_of_mem i0 h
      have I5 : ∀ i, i < i0 → mask.getD i false = true →
          ∃ a b : Nat, a ≤ i ∧ i ≤ b ∧ b < i0 ∧
            k ≤ (b : Int) + 1 - (a : Int) ∧
            ∀ j, a ≤ j → j ≤ b → mask.getD j false = true := by
        intro i hi htrue
        exfalso
        have hm := (flatnonzero_mem mask i).mpr htrue
        rw [hfz] at hm
        rcases List.mem_cons.mp hm with h | h
        · omega
        · exact absurd (hrest i h) (by omega)
      refine ⟨dropShortRunsLoop_length k rest mask i0 i0 1,
        fun i h => dropShortRunsLoop_subset k rest mask i0 i0 1 i h, fun i h => ?_⟩
      refine dropShortRunsLoop_runs k rest mask i0 i0 1 (by omega) (le_refl i0)
        (getD_true_lt_length _ _ hi0) ?_ I3 hpw I5 i h
      intro j h1 h2
      have : j = i0 := by omega
      rw [this]
      exact hi0

theorem drop_short_runs_C3_witness :
    (_drop_short_runs [true, true, false, true] 2).getD 0 false = true ∧
      HasRun (_drop_short_runs [true, true, false, true] 2) 2 0 :=
  ⟨by decide, (drop_short_runs_C3 [true, true, false, true] 2).2.2 0 (by decide)⟩

/-! ## The segmentation engine: `apply_vad`

The audio buffer is a list of rationals (float32 samples).  The WebRTC
classifier is a parameter `List Int → Option Bool` (`none` = the frame
raised), together with the `webrtcvad.Vad(mode)` constructor, which the
code wraps in a `try`/`except` falling back to `Vad(1)`. -/

/-- A voice-activity classifier: `vad.is_speech(frame_bytes, SAMPLE_RATE)`,
`none` modelling an exception. -/
abbrev VadC := List Int → Option Bool

/-- The runtime-configurable VAD parameters read from `cfg` (defaults:
`vad_mode = 1`, `vad_energy_floor = 0.0005`, `vad_energy_ratio = 0.05`,
`vad_min_energy_frames = 3`, `vad_bridge_ms = 120`, `vad_padding_ms = 200`,
`vad_min_output_ratio = 0.4`). -/
structure VadConfig where
  use_vad : Bool
  vad_mode : Int
  vad_energy_floor : ℚ
  vad_energy_ratio : ℚ
  vad_min_energy_frames : Int
  vad_bridge_ms : Int
  vad_padding_ms : Int
  vad_min_output_ratio : ℚ

def SAMPLE_RATE : Nat := 16000

/-- `frame_ms = 30`. -/
def frame_ms : Nat := 30

/-- `frame_length = int(SAMPLE_RATE * frame_ms / 1000)` = 480. -/
def frame_length : Nat := SAMPLE_RATE * frame_ms / 1000

/-- `np.clip(x, lo, hi)`. -/
def clip (lo hi x : ℚ) : ℚ := max lo (min x hi)

/-- Truncation toward zero, as in `float -> int` casts. -/
def ratTrunc (q : ℚ) : Int := if 0 ≤ q then ⌊q⌋ else -⌊-q⌋

/-- Wrap an integer into the int16 range, as `astype(np.int16)` does. -/
def toInt16 (z : Int) : Int := (z + 32768) % 65536 - 32768

/-- The sample quantization performed by `apply_vad`:
`pcm16 = (np.clip(mono, -1.0, 1.0) * 32767).astype(np.int16)`. -/
def quantize16 (x : ℚ) : Int := toInt16 (ratTrunc (clip (-1) 1 x * 32767))

/-- `pcm16` as a list. -/
def pcm16Of (mono : List ℚ) : List Int := mono.map quantize16

/-- `total_frames = len(pcm16) // frame_length`. -/
def totalFramesOf (mono : List ℚ) : Nat := (pcm16Of mono).length / frame_length

/-- `trimmed_pcm.reshape(total_frames, frame_length)`: row `i` is samples
`[i * frame_length, (i+1) * frame_length)`. -/
def chunkRows (l : List Int) (flen total : Nat) : List (List Int) :=
  (List.range total).map (fun i => (l.drop (i * flen)).take flen)

/-- The 30 ms frames of the buffer. -/
def framesOf (mono : List ℚ) : List (List Int) :=
  chunkRows ((pcm16Of mono).take (totalFramesOf mono * frame_length))
    frame_length (totalFramesOf mono)

/-- The leftover samples shorter than one frame. -/
def remainderOf (mono : List ℚ) : List Int :=
  (pcm16Of mono).drop (totalFramesOf mono * frame_length)

/-- The classifier actually used: `webrtcvad.Vad(clamped_mode)`, falling
back to `Vad(1)` when construction fails. -/
def vadUsed (cfg : VadConfig) (vadCtor : Int → Option VadC) (vad1 : VadC) : VadC :=
  (vadCtor (max 0 (min 3 cfg.vad_mode))).getD vad1

/-- `np.max` of a nonempty rational list (`0.0` when empty, matching the
`if rms.size else 0.0` guard). -/
def listMax : List ℚ → ℚ
  | [] => 0
  | x :: xs => xs.foldl max x

/-- `np.mean`. -/
def meanQ (l : List ℚ) : ℚ := l.sum / l.length

/-- Bisection step for the integer square root (`fuel` bounds the number
of halvings; 128 suffices for every argument below `2^127`). -/
def sqrtGo (n : Nat) : Nat → Nat → Nat → Nat
  | 0, lo, _ => lo
  | fuel + 1, lo, hi =>
    if hi ≤ lo + 1 then lo
    else
      let mid := (lo + hi) / 2
      if mid * mid ≤ n then sqrtGo n fuel mid hi else sqrtGo n fuel lo mid

/-- Integer square root by bisection (structural recursion on fuel, so it
evaluates by reduction). -/
def natSqrtB (n : Nat) : Nat := sqrtGo n 128 0 (n + 1)

/-- Computable model of `np.sqrt` on rationals (integer square root of
numerator and denominator); exact whenever the argument is a square of a
rational with reduced square parts, and irrelevant to every theorem
below. -/
def ratSqrt (q : ℚ) : ℚ := mkRat (natSqrtB q.num.toNat) (natSqrtB q.den)

/-- Per-frame RMS energy: `np.sqrt(np.mean(np.square(frame / 32767)))`. -/
def rmsOfFrame (f : List Int) : ℚ :=
  ratSqrt (meanQ (f.map (fun v : Int => ((v : ℚ) / 32767) ^ 2)))

/-- Insertion into a sorted list (ascending), for `np.percentile`'s sort. -/
def insertSorted (x : ℚ) : List ℚ → List ℚ
  | [] => [x]
  | y :: ys => if x ≤ y then x :: y :: ys else y :: insertSorted x ys

/-- Ascending sort. -/
def sortQ (l : List ℚ) : List ℚ := l.foldr insertSorted []

/-- `np.percentile(l, 75)` with the default linear interpolation. -/
def percentile75 (l : List ℚ) : ℚ :=
  let s := sortQ l
  let n := s.length
  let h : ℚ := 3 * ((n : ℚ) - 1) / 4
  let lo : Nat := h.floor.toNat
  let frac : ℚ := h - h.floor
  if lo + 1 < n then s.getD lo 0 + frac * (s.getD (lo + 1) 0 - s.getD lo 0)
  else s.getD lo 0

/-- Python `round()` (half to even), used in `int(round(...))`. -/
def pyRound (q : ℚ) : Int :=
  let f := ⌊q⌋
  let r := q - f
  if r < 1 / 2 then f
  else if 1 / 2 < r then f + 1
  else if 2 ∣ f then f else f + 1

/-- The bridging dilation
`np.convolve(mask, np.ones(2 * b + 1), mode="same") > 0`: position `i`
 becomes true iff some true position lies within distance `b`. -/
def dilate (m : List Bool) (b : Nat) : List Bool :=
  (List.range m.length).map (fun i =>
    (List.range m.length).any (fun j =>
      m.getD j false && decide (j ≤ i + b) && decide (i ≤ j + b)))

/-- Elementwise boolean or (`numpy |` on masks of equal length). -/
def zipOr (a b : List Bool) : List Bool := List.zipWith or a b

/-- The segment-grouping loop over `voiced_indices[1:]`: split whenever
`idx - prev > 1`, and append the open run after the loop. -/
def groupSegmentsLoop (sstart prev : Nat) : List Nat → List (Nat × Nat)
  | [] => [(sstart, prev)]
  | idx :: rest =>
    if idx - prev > 1 then (sstart, prev) :: groupSegmentsLoop idx idx rest
    else groupSegmentsLoop sstart idx rest

/-- `end_idx = min(total_frames, seg_end + padding_frames + 1)`. -/
def segEndIdx (total padding : Nat) (seg : Nat × Nat) : Nat :=
  min total (seg.2 + padding + 1)

/-- One padded segment slice:
`frames[max(0, seg_start - padding) : min(total, seg_end + padding + 1)]`
flattened back to samples (`Nat` subtraction is Python's `max(0, ·)`). -/
def segSlice (frames : List (List Int)) (total padding : Nat)
    (seg : Nat × Nat) : List Int :=
  ((frames.drop (seg.1 - padding)).take (segEndIdx total padding seg - (seg.1 - padding))).flatten

/-- The segment-assembly loop with its `tail_appended` flag: empty slices
are skipped; the remainder is appended to the first segment whose padded
end reaches `total_frames`, if the remainder is nonempty and its RMS is at
least the energy floor. -/
def buildSegs (frames : List (List Int)) (total padding : Nat)
    (rem : List Int) (remRms floor : ℚ) :
    List (Nat × Nat) → Bool → List (List Int)
  | [], _ => []
  | seg :: rest, tailAppended =>
    let sl := segSlice frames total padding seg
    if sl = [] then buildSegs frames total padding rem remRms floor rest tailAppended
    else if ¬tailAppended ∧ rem ≠ [] ∧ total ≤ segEndIdx total padding seg ∧
        floor ≤ remRms then
      (sl ++ rem) :: buildSegs frames total padding rem remRms floor rest true
    else sl :: buildSegs frames total padding rem remRms floor rest tailAppended

/-- `min_energy_frames = max(1, int(cfg.get("vad_min_energy_frames", 3)))`. -/
def minEnergyFramesOf (cfg : VadConfig) : Int := max 1 cfg.vad_min_energy_frames

/-- The energy-threshold block of `apply_vad`: derive the hard and soft
energy masks from the per-frame RMS values and combine them with the VAD
speech mask (`combined_mask = speech_mask | energy_mask | soft_mask`). -/
def combinedMaskOf (cfg : VadConfig) (speech_mask : List Bool)
    (frame_rms : List ℚ) : List Bool :=
  let max_rms := listMax frame_rms
  let energy_floor := cfg.vad_energy_floor
  let energy_ratio := max (1 / 200) (min cfg.vad_energy_ratio (3 / 10))
  let energy_threshold0 := max energy_floor (max_rms * energy_ratio)
  let nonzero_rms := frame_rms.filter (fun r => decide (energy_floor < r))
  let energy_threshold :=
    if nonzero_rms ≠ [] then
      min energy_threshold0 (max energy_floor (percentile75 nonzero_rms))
    else energy_threshold0
  let energy_mask :=
    if frame_rms = [] then speech_mask.map (fun _ => false)
    else frame_rms.map (fun r => decide (energy_threshold ≤ r))
  let soft_ratio := max (1 / 500) (energy_ratio * (1 / 2))
  let soft_threshold := max (energy_floor * (3 / 2)) (max_rms * soft_ratio)
  let soft_mask0 :=
    if frame_rms = [] then speech_mask.map (fun _ => false)
    else frame_rms.map (fun r => decide (soft_threshold ≤ r))
  let soft_mask :=
    if soft_mask0.any id then _drop_short_runs soft_mask0 (minEnergyFramesOf cfg)
    else soft_mask0
  zipOr (zipOr speech_mask energy_mask) soft_mask

/-- The gap-bridging block of `apply_vad`: dilate the combined mask by
`bridge_frames` and re-apply the short-run eraser when
`min_energy_frames > 1`. -/
def bridgedMaskOf (cfg : VadConfig) (combined0 : List Bool) : List Bool :=
  let bridge_ms := max 0 cfg.vad_bridge_ms
  let bridge_frames :=
    if bridge_ms ≠ 0 then (pyRound ((bridge_ms : ℚ) / (frame_ms : ℚ))).toNat
    else 0
  let combined1 :=
    if 0 < bridge_frames then dilate combined0 bridge_frames else combined0
  if 1 < minEnergyFramesOf cfg then
    _drop_short_runs combined1 (minEnergyFramesOf cfg)
  else combined1

/-- `padding_frames = max(1, int(round(max(0, padding_ms) / frame_ms)))`. -/
def paddingFramesOf (cfg : VadConfig) : Nat :=
  (max 1 (pyRound (((max 0 cfg.vad_padding_ms : Int) : ℚ) / (frame_ms : ℚ)))).toNat

/-- `remainder_rms`: RMS of the leftover samples, `0.0` when empty. -/
def remainderRmsOf (remainder : List Int) : ℚ :=
  if remainder ≠ [] then
    ratSqrt (meanQ (remainder.map (fun v : Int => ((v : ℚ) / 32767) ^ 2)))
  else 0

/-- `apply_vad(audio)`: the full segmentation engine.  Returns `some`
buffer on every Python `return` path; returns `none` on the one path where
the Python code raises an uncaught `IndexError` (`voiced_indices[0]` when
`_drop_short_runs` has cleared the whole bridged mask). -/
def apply_vad (cfg : VadConfig) (VAD_AVAILABLE : Bool) (vadCtor : Int → Option VadC)
    (vad1 : VadC) (audio : List ℚ) : Option (List ℚ) :=
  let mono := audio
  if ¬cfg.use_vad ∨ ¬VAD_AVAILABLE then some mono
  else if frame_length = 0 then some mono
  else if totalFramesOf mono = 0 then some mono
  else
    let frames := framesOf mono
    let remainder := remainderOf mono
    match frames.mapM (vadUsed cfg vadCtor vad1) with
    | none => some mono
    | some speech_mask =>
      let combined0 := combinedMaskOf cfg speech_mask (frames.map rmsOfFrame)
      if ¬combined0.any id then some mono
      else
        let combined := bridgedMaskOf cfg combined0
        match flatnonzero combined with
        | [] => none
        | v0 :: vrest =>
          let segments := groupSegmentsLoop v0 v0 vrest
          let segment_buffers :=
            buildSegs frames (totalFramesOf mono) (paddingFramesOf cfg) remainder
              (remainderRmsOf remainder) cfg.vad_energy_floor segments false
          if segment_buffers = [] then some mono
          else
            let processed_pcm :=
              segment_buffers.flatten.map (fun v : Int => (v : ℚ) / 32767)
            let retained_ratio :=
              if mono.length ≠ 0 then (processed_pcm.length : ℚ) / (mono.length : ℚ)
              else 1
            if retained_ratio < cfg.vad_min_output_ratio then some mono
            else some processed_pcm

/-! ### C1: counterexample input

Three 30 ms frames: loud, silent, loud.  With bridging disabled and one
frame of padding, the two voiced frames become two segments whose padded
ranges overlap on the middle frame, so the concatenated output (1920
samples) is longer than the input (1440 samples), and the retention-ratio
gate (`4/3 >= 0.4`) does not fire. -/

/-- A configuration with segmentation enabled (`use_vad = true`),
`energy_floor = 0.0005`, `energy_ratio = 0.05`, `min_energy_frames = 1`,
`bridge_ms = 0`, `padding_ms = 30`, `min_output_ratio = 0.4`. -/
def cexCfg : VadConfig :=
  { use_vad := true, vad_mode := 1, vad_energy_floor := 1 / 2000,
    vad_energy_ratio := 1 / 20, vad_min_energy_frames := 1,
    vad_bridge_ms := 0, vad_padding_ms := 30, vad_min_output_ratio := 2 / 5 }

/-- A classifier that reports non-speech on every frame (the segments come
from the energy masks alone). -/
def cexVad : VadC := fun _ => some false

def cexCtor : Int → Option VadC := fun _ => some cexVad

/-- One loud frame (all samples quantize to 16383). -/
def cexR1 : List Int := List.replicate 480 16383

/-- One silent frame. -/
def cexR0 : List Int := List.replicate 480 0

/-- The counterexample buffer: 0.5 for 30 ms, silence for 30 ms, 0.5 for
30 ms (1440 samples at 16 kHz). -/
def cexInput : List ℚ :=
  List.replicate 480 (1 / 2) ++ List.replicate 480 0 ++ List.replicate 480 (1 / 2)

unseal Rat.add Rat.mul Rat.inv Rat.sub in
lemma q16_half : quantize16 (1 / 2) = 16383 := by decide

unseal Rat.add Rat.mul Rat.inv Rat.sub in
lemma q16_zero : quantize16 0 = 0 := by decide

lemma cex_pcm16 : pcm16Of cexInput = cexR1 ++ cexR0 ++ cexR1 := by
  unfold cexInput pcm16Of cexR1 cexR0
  rw [List.map_append, List.map_append, List.map_replicate, List.map_replicate,
    q16_half, q16_zero]

lemma cex_len : cexInput.length = 1440 := by
  unfold cexInput
  simp only [List.length_append, List.length_replicate]

lemma cex_total : totalFramesOf cexInput = 3 := by
  unfold totalFramesOf
  rw [show (pcm16Of cexInput).length = 1440 by
    rw [cex_pcm16]; unfold cexR1 cexR0
    simp only [List.length_append, List.length_replicate]]
  decide

lemma cex_frames : framesOf cexInput = [cexR1, cexR0, cexR1] := by
  unfold framesOf chunkRows
  rw [cex_total, cex_pcm16]
  have hfl : frame_length = 480 := by decide
  rw [hfl]
  have hlen : (cexR1 ++ cexR0 ++ cexR1).length = 3 * 480 := by
    unfold cexR1 cexR0
    simp only [List.length_append, List.length_replicate]
  rw [← hlen, List.take_length]
  have h1 : cexR1.length = 480 := by unfold cexR1; exact List.length_replicate 480 _
  have h0 : cexR0.length = 480 := by unfold cexR0; exact List.length_replicate 480 _
  rw [show List.range 3 = [0, 1, 2] from rfl]
  simp only [List.map_cons, List.map_nil, List.cons.injEq, and_true]
  refine ⟨?_, ?_, ?_⟩
  · rw [List.append_assoc, Nat.zero_mul, List.drop_zero, List.take_left' h1]
  · rw [List.append_assoc, Nat.one_mul, List.drop_left' h1, List.take_left' h0]
  · rw [show 2 * 480 = 960 by norm_num,
      show (cexR1 ++ cexR0 ++ cexR1) = (cexR1 ++ cexR0) ++ cexR1 by rw [List.append_assoc],
      List.drop_left' (by simp only [List.length_append, h1, h0]), ← h1, List.take_length]

lemma cex_remainder : remainderOf cexInput = [] := by
  unfold remainderOf
  rw [cex_total, show frame_length = 480 by decide,
    show 3 * 480 = (pcm16Of cexInput).length by
      rw [cex_pcm16]; unfold cexR1 cexR0
      simp only [List.length_append, List.length_replicate],
    List.drop_length]

unseal Rat.add Rat.mul Rat.inv Rat.sub in
lemma cex_sqrt1 : ratSqrt (((16383 : ℚ) / 32767) ^ 2) = 16383 / 32767 := by decide

lemma mean_replicate (n : Nat) (hn : n ≠ 0) (a : ℚ) :
    meanQ (List.replicate n a) = a := by
  unfold meanQ
  rw [List.sum_replicate, List.length_replicate, nsmul_eq_mul]
  exact mul_div_cancel_left₀ a (Nat.cast_ne_zero.mpr hn)

lemma cex_rms1 : rmsOfFrame cexR1 = 16383 / 32767 := by
  unfold rmsOfFrame cexR1
  rw [List.map_replicate, mean_replicate 480 (by norm_num)]
  rw [show (((16383 : Int) : ℚ) / 32767) ^ 2 = ((16383 : ℚ) / 32767) ^ 2 by norm_num]
  exact cex_sqrt1

lemma cex_rms0 : rmsOfFrame cexR0 = 0 := by
  unfold rmsOfFrame cexR0
  rw [List.map_replicate, mean_replicate 480 (by norm_num)]
  norm_num
  decide

unseal Rat.add Rat.mul Rat.inv Rat.sub in
lemma cex_comb :
    combinedMaskOf cexCfg [false, false, false] [16383 / 32767, 0, 16383 / 32767]
      = [true, false, true] := by decide

unseal Rat.add Rat.mul Rat.inv Rat.sub in
lemma cex_bridged : bridgedMaskOf cexCfg [true, false, true] = [true, false, true] := by
  decide

lemma cex_slice1 : segSlice [cexR1, cexR0, cexR1] 3 1 (0, 0) = cexR1 ++ cexR0 := by
  show List.flatten [cexR1, cexR0] = cexR1 ++ cexR0
  simp only [List.flatten_cons, List.flatten_nil, List.append_nil]

lemma cex_slice2 : segSlice [cexR1, cexR0, cexR1] 3 1 (2, 2) = cexR0 ++ cexR1 := by
  show List.flatten [cexR0, cexR1] = cexR0 ++ cexR1
  simp only [List.flatten_cons, List.flatten_nil, List.append_nil]

lemma cex_ne1 : cexR1 ++ cexR0 ≠ [] := by
  intro h
  have hl := congrArg List.length h
  simp only [List.length_append, cexR1, cexR0, List.length_replicate,
    List.length_nil] at hl
  omega

lemma cex_ne2 : cexR0 ++ cexR1 ≠ [] := by
  intro h
  have hl := congrArg List.length h
  simp only [List.length_append, cexR1, cexR0, List.length_replicate,
    List.length_nil] at hl
  omega

lemma cex_buildSegs :
    buildSegs [cexR1, cexR0, cexR1] 3 1 [] 0 (1 / 2000) [(0, 0), (2, 2)] false
      = [cexR1 ++ cexR0, cexR0 ++ cexR1] := by
  unfold buildSegs
  rw [cex_slice1]
  simp only []
  rw [if_neg cex_ne1, if_neg (by simp)]
  unfold buildSegs
  rw [cex_slice2]
  simp only []
  rw [if_neg cex_ne2, if_neg (by simp)]
  rfl

unseal Rat.add Rat.mul Rat.inv Rat.sub in
/-- C1 counterexample: on a 1440-sample buffer (loud/silent/loud frames)
with segmentation enabled, bridging disabled and one frame of padding,
`apply_vad` returns a 1920-sample buffer: the two padded segments overlap
on the middle frame and duplicate it, so `output.length <= input.length`
fails (and the retention-ratio fallback does not fire, since 1920/1440 is
not below 0.4). -/
theorem segmentation_monotonic_C1_cex :
    cexCfg.use_vad = true ∧ cexInput.length = 1440 ∧
      (apply_vad cexCfg true cexCtor cexVad cexInput).map List.length = some 1920 ∧
      ¬(1920 ≤ 1440) := by
  refine ⟨rfl, cex_len, ?_, by norm_num⟩
  unfold apply_vad
  rw [if_neg (by decide), if_neg (by decide), if_neg (by rw [cex_total]; decide)]
  rw [cex_frames, cex_remainder]
  simp only []
  rw [show List.mapM (vadUsed cexCfg cexCtor cexVad) [cexR1, cexR0, cexR1]
      = some [false, false, false] from rfl]
  simp only []
  rw [show List.map rmsOfFrame [cexR1, cexR0, cexR1]
      = [16383 / 32767, 0, 16383 / 32767] by
    simp only [List.map_cons, List.map_nil, cex_rms1, cex_rms0]]
  rw [cex_comb]
  rw [if_neg (by decide)]
  rw [cex_bridged]
  rw [show flatnonzero [true, false, true] = [0, 2] from rfl]
  simp only []
  rw [show groupSegmentsLoop 0 0 [2] = [(0, 0), (2, 2)] from rfl]
  rw [show paddingFramesOf cexCfg = 1 from by decide]
  rw [show remainderRmsOf [] = 0 from rfl]
  rw [show cexCfg.vad_energy_floor = 1 / 2000 from rfl]
  rw [cex_total, cex_buildSegs]
  rw [if_neg (by simp)]
  have hplen : (List.map (fun v : Int => (v : ℚ) / 32767)
      ([cexR1 ++ cexR0, cexR0 ++ cexR1].flatten)).length = 1920 := by
    simp only [List.length_map, List.length_flatten, List.map_cons, List.map_nil,
      List.length_append, cexR1, cexR0, List.length_replicate, List.sum_cons,
      List.sum_nil]
    omega
  rw [cex_len, hplen]
  rw [if_pos (show (1440 : ℕ) ≠ 0 by norm_num)]
  rw [show cexCfg.vad_min_output_ratio = 2 / 5 from rfl]
  rw [if_neg (show ¬(((1920 : ℕ) : ℚ) / ((1440 : ℕ) : ℚ) < 2 / 5) by
    push_cast; norm_num)]
  rw [Option.map_some', hplen]

/-- C1 (amended, ratio part): every buffer `apply_vad` returns is either
the original input itself, or a segmented result retaining at least the
configured minimum output ratio of the input — whenever the segmented
result's length ratio falls below `vad_min_output_ratio`, the original
input is returned instead.  (The monotonicity part of C1 is false: see
`segmentation_monotonic_C1_cex`.) -/
theorem segmentation_ratio_amended_C1 (cfg : VadConfig) (avail : Bool)
    (vadCtor : Int → Option VadC) (vad1 : VadC) (audio out : List ℚ)
    (h : apply_vad cfg avail vadCtor vad1 audio = some out) :
    out = audio ∨
      cfg.vad_min_output_ratio * (audio.length : ℚ) ≤ (out.length : ℚ) := by
  unfold apply_vad at h
  simp only [] at h
  split at h
  · exact Or.inl (Option.some.inj h).symm
  split at h
  · exact Or.inl (Option.some.inj h).symm
  split at h
  · exact Or.inl (Option.some.inj h).symm
  split at h
  · exact Or.inl (Option.some.inj h).symm
  split at h
  · exact Or.inl (Option.some.inj h).symm
  split at h
  · exact absurd h (by simp)
  rename_i v0 vrest heq
  split at h
  · exact Or.inl (Option.some.inj h).symm
  -- the retained-ratio guard: first the inner length test, then the gate
  split at h
  · rename_i hlen
    split at h
    · exact Or.inl (Option.some.inj h).symm
    · rename_i hratio
      rw [not_lt] at hratio
      refine Or.inr ?_
      rw [← Option.some.inj h]
      have hpos : (0 : ℚ) < (audio.length : ℚ) := by
        have hne : audio.length ≠ 0 := hlen
        have : 0 < audio.length := Nat.pos_of_ne_zero hne
        exact_mod_cast this
      calc cfg.vad_min_output_ratio * (audio.length : ℚ)
          ≤ _ / (audio.length : ℚ) * (audio.length : ℚ) :=
            mul_le_mul_of_nonneg_right hratio (le_of_lt hpos)
        _ = _ := div_mul_cancel₀ _ (ne_of_gt hpos)
  · rename_i hlen
    split at h
    · exact Or.inl (Option.some.inj h).symm
    · refine Or.inr ?_
      have h0 : (audio.length : ℚ) = 0 := by
        have : audio.length = 0 := by
          by_contra hc
          exact hlen hc
        rw [this]
        norm_num
      rw [h0, mul_zero]
      positivity

theorem segmentation_ratio_amended_C1_witness :
    ([(1 : ℚ) / 2] : List ℚ) = [(1 : ℚ) / 2] ∨
      cexCfg.vad_min_output_ratio * (([(1 : ℚ) / 2] : List ℚ).length : ℚ)
        ≤ (([(1 : ℚ) / 2] : List ℚ).length : ℚ) :=
  segmentation_ratio_amended_C1
    { cexCfg with use_vad := false } true cexCtor cexVad [(1 : ℚ) / 2] [(1 : ℚ) / 2] rfl

/-- C4: when voice-activity filtering is disabled (`use_vad` false),
`apply_vad` is the identity: it returns the input buffer unchanged. -/
theorem segmentation_identity_C4 (cfg : VadConfig) (avail : Bool)
    (vadCtor : Int → Option VadC) (vad1 : VadC) (x : List ℚ)
    (h : cfg.use_vad = false) :
    apply_vad cfg avail vadCtor vad1 x = some x := by
  unfold apply_vad
  rw [if_pos (Or.inl (by simp [h]))]

theorem segmentation_identity_C4_witness :
    apply_vad { cexCfg with use_vad := false } true cexCtor cexVad [(1 : ℚ) / 3, 7]
      = some [(1 : ℚ) / 3, 7] :=
  segmentation_identity_C4 _ true cexCtor cexVad _ rfl

lemma mapM_loop_none {α β : Type} (f : α → Option β) (l : List α)
    (h : ∃ a ∈ l, f a = none) :
    ∀ acc : List β, List.mapM.loop f l acc = none := by
  induction l with
  | nil => simp at h
  | cons x xs ih =>
    intro acc
    rcases h with ⟨a, ha, hfa⟩
    rcases List.mem_cons.mp ha with rfl | hmem
    · simp [List.mapM.loop, hfa]
    · cases hx : f x with
      | none => simp [List.mapM.loop, hx]
      | some b =>
        simp only [List.mapM.loop, hx, Option.bind_some]
        exact ih ⟨a, hmem, hfa⟩ (b :: acc)

lemma mapM_eq_none_of_mem {α β : Type} (f : α → Option β) (l : List α)
    (h : ∃ a ∈ l, f a = none) : l.mapM f = none :=
  mapM_loop_none f l h []

/-- C5: if the voice-activity classifier raises on any single frame of the
buffer, `apply_vad` abandons segmentation and returns the original input
unchanged. -/
theorem segmentation_vad_failure_C5 (cfg : VadConfig) (avail : Bool)
    (vadCtor : Int → Option VadC) (vad1 : VadC) (audio : List ℚ)
    (h : ∃ f ∈ framesOf audio, vadUsed cfg vadCtor vad1 f = none) :
    apply_vad cfg avail vadCtor vad1 audio = some audio := by
  have hm : (framesOf audio).mapM (vadUsed cfg vadCtor vad1) = none :=
    mapM_eq_none_of_mem _ _ h
  unfold apply_vad
  by_cases h1 : ¬cfg.use_vad ∨ ¬avail
  · rw [if_pos h1]
  rw [if_neg h1]
  by_cases h2 : frame_length = 0
  · rw [if_pos h2]
  rw [if_neg h2]
  by_cases h3 : totalFramesOf audio = 0
  · rw [if_pos h3]
  rw [if_neg h3]
  simp only []
  rw [hm]

lemma w5_pcm : pcm16Of (List.replicate 480 (0 : ℚ)) = List.replicate 480 (0 : Int) := by
  unfold pcm16Of
  rw [List.map_replicate, q16_zero]

lemma w5_total : totalFramesOf (List.replicate 480 (0 : ℚ)) = 1 := by
  unfold totalFramesOf
  rw [w5_pcm, List.length_replicate]
  decide

lemma w5_frames :
    framesOf (List.replicate 480 (0 : ℚ)) = [List.replicate 480 (0 : Int)] := by
  unfold framesOf chunkRows
  rw [w5_total, w5_pcm, show frame_length = 480 by decide,
    show (1 : Nat) * 480 = 480 from rfl,
    show List.take 480 (List.replicate 480 (0 : Int)) = List.replicate 480 0 by
      rw [List.take_replicate]; norm_num,
    show List.range 1 = [0] from rfl]
  simp only [List.map_cons, List.map_nil, Nat.zero_mul, List.drop_zero]
  rw [show List.take 480 (List.replicate 480 (0 : Int)) = List.replicate 480 0 by
    rw [List.take_replicate]; norm_num]

theorem segmentation_vad_failure_C5_witness :
    apply_vad cexCfg true (fun _ => some (fun _ => none)) (fun _ => none)
      (List.replicate 480 (0 : ℚ))
      = some (List.replicate 480 (0 : ℚ)) :=
  segmentation_vad_failure_C5 cexCfg true (fun _ => some (fun _ => none))
    (fun _ => none) (List.replicate 480 (0 : ℚ))
    ⟨List.replicate 480 0, by rw [w5_frames]; exact List.mem_singleton.mpr rfl, rfl⟩

/-! ### C6: the tail-append rule of the segment assembly -/

lemma buildSegs_true_eq (frames : List (List Int)) (total padding : Nat)
    (rem : List Int) (remRms floor : ℚ) (segs : List (Nat × Nat))
    (hsl : ∀ s ∈ segs, segSlice frames total padding s ≠ []) :
    buildSegs frames total padding rem remRms floor segs true
      = segs.map (segSlice frames total padding) := by
  induction segs with
  | nil => rfl
  | cons seg rest ih =>
    unfold buildSegs
    simp only []
    rw [if_neg (hsl seg (List.mem_cons_self _ _)), if_neg (by simp),
      ih (fun s hs => hsl s (List.mem_cons_of_mem seg hs)), List.map_cons]

lemma buildSegs_false_noappend (frames : List (List Int)) (total padding : Nat)
    (rem : List Int) (remRms floor : ℚ) (segs : List (Nat × Nat))
    (hsl : ∀ s ∈ segs, segSlice frames total padding s ≠ [])
    (hcond : rem = [] ∨ remRms < floor ∨
      ∀ s ∈ segs, ¬ total ≤ segEndIdx total padding s) :
    buildSegs frames total padding rem remRms floor segs false
      = segs.map (segSlice frames total padding) := by
  induction segs with
  | nil => rfl
  | cons seg rest ih =>
    unfold buildSegs
    simp only []
    rw [if_neg (hsl seg (List.mem_cons_self _ _))]
    rw [if_neg ?hc]
    case hc =>
      rintro ⟨-, hrem, hreach, hrms⟩
      rcases hcond with h | h | h
      · exact hrem h
      · exact absurd hrms (not_le.mpr h)
      · exact h seg (List.mem_cons_self _ _) hreach
    rw [ih (fun s hs => hsl s (List.mem_cons_of_mem seg hs)) ?hrest, List.map_cons]
    case hrest =>
      rcases hcond with h | h | h
      · exact Or.inl h
      · exact Or.inr (Or.inl h)
      · exact Or.inr (Or.inr (fun s hs => h s (List.mem_cons_of_mem seg hs)))

lemma buildSegs_false_append (frames : List (List Int)) (total padding : Nat)
    (rem : List Int) (remRms floor : ℚ)
    (hrem : rem ≠ []) (hrms : floor ≤ remRms) :
    ∀ (pre : List (Nat × Nat)) (q : Nat × Nat) (post : List (Nat × Nat)),
      (∀ s ∈ pre ++ q :: post, segSlice frames total padding s ≠ []) →
      (∀ s ∈ pre, ¬ total ≤ segEndIdx total padding s) →
      total ≤ segEndIdx total padding q →
      (buildSegs frames total padding rem remRms floor (pre ++ q :: post) false).flatten
        = (pre.map (segSlice frames total padding)).flatten
          ++ segSlice frames total padding q ++ rem
          ++ (post.map (segSlice frames total padding)).flatten := by
  intro pre
  induction pre with
  | nil =>
    intro q post hsl hpre hq
    rw [List.nil_append]
    unfold buildSegs
    simp only []
    rw [if_neg (hsl q (List.mem_cons_self _ _)),
      if_pos ⟨by simp, hrem, hq, hrms⟩,
      buildSegs_true_eq frames total padding rem remRms floor post
        (fun s hs => hsl s (List.mem_cons_of_mem q hs))]
    simp only [List.map_nil, List.flatten_nil, List.flatten_cons, List.nil_append,
      List.append_assoc]
  | cons p pre' ih =>
    intro q post hsl hpre hq
    rw [List.cons_append]
    unfold buildSegs
    simp only []
    rw [if_neg (hsl p (by simp))]
    rw [if_neg ?hcp]
    case hcp =>
      rintro ⟨-, -, hreach, -⟩
      exact hpre p (List.mem_cons_self _ _) hreach
    rw [List.flatten_cons]
    rw [ih q post (fun s hs => hsl s (by simp [hs]))
      (fun s hs => hpre s (List.mem_cons_of_mem p hs)) hq]
    simp only [List.map_cons, List.flatten_cons, List.append_assoc]

/-- C6: during segment extraction, the leftover remainder is appended at
most once; exactly to the first segment whose padding-expanded end reaches
the end of the framed buffer, and only when the remainder is nonempty and
its RMS is at least the energy floor; when no segment's expanded end
reaches the buffer end, or the remainder RMS is below the floor, the
output contains no remainder at all (it is exactly the concatenation of
the padded slices). -/
theorem remainder_append_C6 (frames : List (List Int)) (total padding : Nat)
    (rem : List Int) (remRms floor : ℚ) (segs : List (Nat × Nat))
    (hsl : ∀ s ∈ segs, segSlice frames total padding s ≠ []) :
    ((rem = [] ∨ remRms < floor ∨
        ∀ s ∈ segs, ¬ total ≤ segEndIdx total padding s) →
      (buildSegs frames total padding rem remRms floor segs false).flatten
        = (segs.map (segSlice frames total padding)).flatten) ∧
    (∀ pre q post, segs = pre ++ q :: post →
      rem ≠ [] → floor ≤ remRms →
      (∀ s ∈ pre, ¬ total ≤ segEndIdx total padding s) →
      total ≤ segEndIdx total padding q →
      (buildSegs frames total padding rem remRms floor segs false).flatten
        = (pre.map (segSlice frames total padding)).flatten
          ++ segSlice frames total padding q ++ rem
          ++ (post.map (segSlice frames total padding)).flatten) := by
  constructor
  · intro hcond
    rw [buildSegs_false_noappend frames total padding rem remRms floor segs hsl hcond]
  · intro pre q post hsegs hrem hrms hpre hq
    subst hsegs
    exact buildSegs_false_append frames total padding rem remRms floor hrem hrms
      pre q post hsl hpre hq

theorem remainder_append_C6_witness :
    (buildSegs [[(5 : Int)]] 1 1 [7] 1 0 [(0, 0)] false).flatten
      = (([] : List (Nat × Nat)).map (segSlice [[(5 : Int)]] 1 1)).flatten
        ++ segSlice [[(5 : Int)]] 1 1 (0, 0) ++ [7]
        ++ (([] : List (Nat × Nat)).map (segSlice [[(5 : Int)]] 1 1)).flatten :=
  (remainder_append_C6 [[(5 : Int)]] 1 1 [7] 1 0 [(0, 0)]
      (by decide)).2 [] (0, 0) [] rfl (by decide) (by norm_num)
    (by simp) (by decide)

/-! ### C10: the segmented output is built from 16-bit re-quantized samples -/

lemma segSlice_subset_flatten (frames : List (List Int)) (total padding : Nat)
    (seg : Nat × Nat) (z : Int) (hz : z ∈ segSlice frames total padding seg) :
    z ∈ frames.flatten := by
  unfold segSlice at hz
  rcases List.mem_flatten.mp hz with ⟨row, hrow, hzrow⟩
  exact List.mem_flatten.mpr
    ⟨row, List.drop_subset _ _ (List.take_subset _ _ hrow), hzrow⟩

lemma buildSegs_flatten_subset (frames : List (List Int)) (total padding : Nat)
    (rem : List Int) (remRms floor : ℚ) :
    ∀ (segs : List (Nat × Nat)) (flag : Bool) (z : Int),
      z ∈ (buildSegs frames total padding rem remRms floor segs flag).flatten →
      z ∈ frames.flatten ∨ z ∈ rem := by
  intro segs
  induction segs with
  | nil =>
    intro flag z hz
    simp [buildSegs] at hz
  | cons seg rest ih =>
    intro flag z hz
    unfold buildSegs at hz
    simp only [] at hz
    split at hz
    · exact ih flag z hz
    split at hz
    · rw [List.flatten_cons] at hz
      rcases List.mem_append.mp hz with hz1 | hz2
      · rcases List.mem_append.mp hz1 with hsl | hrem
        · exact Or.inl (segSlice_subset_flatten frames total padding seg z hsl)
        · exact Or.inr hrem
      · exact ih true z hz2
    · rw [List.flatten_cons] at hz
      rcases List.mem_append.mp hz with hz1 | hz2
      · exact Or.inl (segSlice_subset_flatten frames total padding seg z hz1)
      · exact ih flag z hz2

lemma mem_framesOf_subset (audio : List ℚ) (z : Int)
    (hz : z ∈ (framesOf audio).flatten) : z ∈ pcm16Of audio := by
  unfold framesOf chunkRows at hz
  rcases List.mem_flatten.mp hz with ⟨row, hrow, hzrow⟩
  rcases List.mem_map.mp hrow with ⟨i, -, rfl⟩
  exact List.take_subset _ _
    (List.drop_subset _ _ (List.take_subset _ _ hzrow))

lemma mem_remainderOf_subset (audio : List ℚ) (z : Int)
    (hz : z ∈ remainderOf audio) : z ∈ pcm16Of audio :=
  List.drop_subset _ _ hz

lemma mem_pcm16_quantized (audio : List ℚ) (z : Int) (hz : z ∈ pcm16Of audio) :
    ∃ i : Nat, i < audio.length ∧ z = quantize16 (audio.getD i 0) := by
  unfold pcm16Of at hz
  rcases List.mem_map.mp hz with ⟨x, hx, rfl⟩
  rcases List.mem_iff_getElem.mp hx with ⟨i, hi, hget⟩
  refine ⟨i, hi, ?_⟩
  rw [List.getD_eq_getElem?_getD, List.getElem?_eq_getElem hi, Option.getD_some, hget]

lemma exists_index_map {β : Type} (g : Nat → β) (n : Nat) :
    ∀ w : List β, (∀ y ∈ w, ∃ i : Nat, i < n ∧ y = g i) →
      ∃ idxs : List Nat, (∀ i ∈ idxs, i < n) ∧ w = idxs.map g := by
  intro w
  induction w with
  | nil => exact fun _ => ⟨[], by simp, rfl⟩
  | cons y ys ih =>
    intro h
    rcases h y (List.mem_cons_self _ _) with ⟨i, hi, hy⟩
    rcases ih (fun y' hy' => h y' (List.mem_cons_of_mem y hy')) with ⟨idxs, hlt, heq⟩
    refine ⟨i :: idxs, ?_, ?_⟩
    · intro j hj
      rcases List.mem_cons.mp hj with rfl | hj'
      · exact hi
      · exact hlt j hj'
    · rw [List.map_cons, ← hy, ← heq]

/-- C10: whenever `apply_vad` returns a segmented (non-fallback) result,
every output sample is the 16-bit re-quantization of a corresponding input
sample — clip to `[-1, 1]`, scale by 32767, truncate to int16, divide by
32767 — i.e. the output is an index-map of quantized input samples (and in
general not a subsequence of the original float samples). -/
theorem quantized_output_C10 (cfg : VadConfig) (avail : Bool)
    (vadCtor : Int → Option VadC) (vad1 : VadC) (audio out : List ℚ)
    (h : apply_vad cfg avail vadCtor vad1 audio = some out) :
    out = audio ∨
      ∃ idxs : List Nat, (∀ i ∈ idxs, i < audio.length) ∧
        out = idxs.map (fun i => ((quantize16 (audio.getD i 0) : ℚ) / 32767)) := by
  unfold apply_vad at h
  simp only [] at h
  split at h
  · exact Or.inl (Option.some.inj h).symm
  split at h
  · exact Or.inl (Option.some.inj h).symm
  split at h
  · exact Or.inl (Option.some.inj h).symm
  split at h
  · exact Or.inl (Option.some.inj h).symm
  split at h
  · exact Or.inl (Option.some.inj h).symm
  split at h
  · exact absurd h (by simp)
  rename_i v0 vrest heq
  split at h
  · exact Or.inl (Option.some.inj h).symm
  split at h
  · split at h
    · exact Or.inl (Option.some.inj h).symm
    · refine Or.inr ?_
      rw [← Option.some.inj h]
      refine exists_index_map _ audio.length _ ?_
      intro y hy
      rcases List.mem_map.mp hy with ⟨z, hz, rfl⟩
      have hzp : z ∈ pcm16Of audio := by
        rcases buildSegs_flatten_subset (framesOf audio) (totalFramesOf audio)
            (paddingFramesOf cfg) (remainderOf audio) (remainderRmsOf (remainderOf audio))
            cfg.vad_energy_floor _ false z hz with hzf | hzr
        · exact mem_framesOf_subset audio z hzf
        · exact mem_remainderOf_subset audio z hzr
      rcases mem_pcm16_quantized audio z hzp with ⟨i, hi, rfl⟩
      exact ⟨i, hi, rfl⟩
  · split at h
    · exact Or.inl (Option.some.inj h).symm
    · refine Or.inr ?_
      rw [← Option.some.inj h]
      refine exists_index_map _ audio.length _ ?_
      intro y hy
      rcases List.mem_map.mp hy with ⟨z, hz, rfl⟩
      have hzp : z ∈ pcm16Of audio := by
        rcases buildSegs_flatten_subset (framesOf audio) (totalFramesOf audio)
            (paddingFramesOf cfg) (remainderOf audio) (remainderRmsOf (remainderOf audio))
            cfg.vad_energy_floor _ false z hz with hzf | hzr
        · exact mem_framesOf_subset audio z hzf
        · exact mem_remainderOf_subset audio z hzr
      rcases mem_pcm16_quantized audio z hzp with ⟨i, hi, rfl⟩
      exact ⟨i, hi, rfl⟩

theorem quantized_output_C10_witness :
    ([(7 : ℚ)] : List ℚ) = [(7 : ℚ)] ∨
      ∃ idxs : List Nat, (∀ i ∈ idxs, i < ([(7 : ℚ)] : List ℚ).length) ∧
        [(7 : ℚ)] = idxs.map
          (fun i => ((quantize16 (([(7 : ℚ)] : List ℚ).getD i 0) : ℚ) / 32767)) :=
  quantized_output_C10 { cexCfg with use_vad := false } true cexCtor cexVad
    [(7 : ℚ)] [(7 : ℚ)] rfl

/-! ## The recording session controller: `start_recording`

The global `state` dict and `AUDIO_QUEUE` are modelled as one record; the
sounddevice stream (`sd.InputStream(...)` + `stream.start()`) is a
parameter of type `Option Nat` (`none` = acquisition raised); the device
table (`sd.query_devices()`) is a parameter list of `(index, name)` pairs;
`notify` is modelled by the list of messages emitted. -/

/-- The mutable fields of `state` relevant to the recording session, plus
the global `AUDIO_QUEUE` (`some` = a queue object is installed). -/
structure RecState where
  recording : Bool
  device_idx : Option Nat
  stream : Option Nat
  audio_queue : Option (List (List ℚ))
deriving DecidableEq, Repr

/-- `find_device_index_by_name`: `None`/empty is falsy; exact
case-insensitive match first, then substring match. -/
def find_device_index_by_name (devices : List (Nat × Str)) (name : Option Str) :
    Option Nat :=
  match name with
  | none => none
  | some nm =>
    if nm = [] then none
    else
      match devices.find? (fun d => pylower d.2 = pylower nm) with
      | some d => some d.1
      | none =>
        match devices.find? (fun d => decide (pylower nm <:+: pylower d.2)) with
        | some d => some d.1
        | none => none

/-- `start_recording`: no-op when already recording; otherwise resolve the
device index, install a fresh queue, and open/start the input stream.  On
acquisition failure (`openStream = none`) the `except` branch clears
`AUDIO_QUEUE` and reports; `state["recording"]`/`state["stream"]` were
never assigned, so the session stays Idle.  Returns the new state and the
notifications emitted. -/
def start_recording (devices : List (Nat × Str)) (device_name : Option Str)
    (openStream : Option Nat) (s : RecState) : RecState × List Str :=
  if s.recording then (s, [])
  else
    let s1 := { s with device_idx := find_device_index_by_name devices device_name }
    match openStream with
    | some handle =>
      ({ s1 with audio_queue := some [], stream := some handle, recording := true },
        [str "Recording started."])
    | none =>
      ({ s1 with audio_queue := none }, [str "Unable to start recording."])

/-- C7: `start_recording` is atomic on failure and total: from an Idle
state (`recording = false`, no stream stored), a stream-acquisition
failure leaves the state Idle — `recording` still false and no stream
handle stored — and the failure is reported through the notification
collaborator.  No exception propagates: the embedding is a total function
returning a state on every input. -/
theorem start_recording_failure_C7 (devices : List (Nat × Str))
    (device_name : Option Str) (s : RecState)
    (hrec : s.recording = false) (hstream : s.stream = none) :
    (start_recording devices device_name none s).1.recording = false ∧
      (start_recording devices device_name none s).1.stream = none ∧
      (start_recording devices device_name none s).2
        = [str "Unable to start recording."] := by
  unfold start_recording
  rw [if_neg (by rw [hrec]; simp)]
  exact ⟨hrec, hstream, rfl⟩

theorem start_recording_failure_C7_witness :
    (start_recording [(0, str "Microphone")] (some (str "Microphone")) none
        ⟨false, none, none, none⟩).1.recording = false ∧
      (start_recording [(0, str "Microphone")] (some (str "Microphone")) none
        ⟨false, none, none, none⟩).1.stream = none ∧
      (start_recording [(0, str "Microphone")] (some (str "Microphone")) none
        ⟨false, none, none, none⟩).2 = [str "Unable to start recording."] :=
  start_recording_failure_C7 [(0, str "Microphone")] (some (str "Microphone"))
    ⟨false, none, none, none⟩ rfl rfl

/-! ## The hotkey listener: `start_hotkey_listener`

Key events are modelled with an explicit key type: the escape key, the
modifier keys (`MODIFIER_LOOKUP`, with their left/right variants), the
function keys, character keys, and other keys.  `on_press`/`on_release`
are the two listener callbacks; the Bool result of a step records whether
`toggle_recording()` was fired by that event. -/

/-- A physical key as seen by the key-event source. -/
inductive PKey where
  | esc
  | modKey (m : Modifier) (variant : Nat)
  | fkey (n : Nat)
  | charKey (c : Char)
  | other (id : Nat)
deriving DecidableEq, Repr

/-- `modifier_name(key) = MODIFIER_LOOKUP.get(key)`: every variant of a
modifier key maps to its canonical name. -/
def pkey_modifier_name : PKey → Option Modifier
  | .modKey m _ => some m
  | _ => none

/-- `event_to_token`: function keys map to their `FKEYS` name; character
keys strip and uppercase, accepted when a single character remains. -/
def event_to_token : PKey → Option Str
  | .fkey n => if 1 ≤ n ∧ n ≤ 24 then FKEYS[n - 1]? else none
  | .charKey c =>
    let t := pystrip [c]
    if t.length = 1 then some (pyupper t) else none
  | _ => none

/-- The listener's mutable state: the two closure sets of
`start_hotkey_listener` plus the `state` flags it reads. -/
structure ListenerState where
  active_modifiers : Finset Modifier
  active_tokens : Finset Str
  recording : Bool
  hotkey_capture_active : Bool
deriving DecidableEq

inductive KeyEvent where
  | press (k : PKey)
  | release (k : PKey)
deriving DecidableEq, Repr

/-- `on_press`: escape stops an active recording; capture mode suspends
everything; modifiers accumulate; a key token fires `toggle_recording()`
only if it is the configured token, not already held (debounce), and the
required modifiers are held.  The Bool records whether the toggle fired. -/
def on_press (hk : HotkeyBinding) (s : ListenerState) (k : PKey) :
    ListenerState × Bool :=
  if s.recording ∧ k = .esc then ({ s with recording := false }, false)
  else if s.hotkey_capture_active then (s, false)
  else
    match pkey_modifier_name k with
    | some m => ({ s with active_modifiers := insert m s.active_modifiers }, false)
    | none =>
      match event_to_token k with
      | none => (s, false)
      | some token =>
        if token ≠ hk.key_token then (s, false)
        else if token ∈ s.active_tokens then (s, false)
        else
          let s' := { s with active_tokens := insert token s.active_tokens }
          if hk.modifiers ⊆ s.active_modifiers then
            ({ s' with recording := ¬s'.recording }, true)
          else (s', false)

/-- `on_release`: capture mode suspends everything; otherwise the modifier
and the token of the key are discarded from the held sets. -/
def on_release (s : ListenerState) (k : PKey) : ListenerState :=
  if s.hotkey_capture_active then s
  else
    let s1 :=
      match pkey_modifier_name k with
      | some m => { s with active_modifiers := s.active_modifiers.erase m }
      | none => s
    match event_to_token k with
    | some token => { s1 with active_tokens := s1.active_tokens.erase token }
    | none => s1

/-- One listener step; the Bool records whether `toggle_recording` fired. -/
def listener_step (hk : HotkeyBinding) (s : ListenerState) :
    KeyEvent → ListenerState × Bool
  | .press k => on_press hk s k
  | .release k => (on_release s k, false)

/-- The state after feeding a sequence of key events to the listener. -/
def runListener (hk : HotkeyBinding) (s0 : ListenerState)
    (evs : List KeyEvent) : ListenerState :=
  evs.foldl (fun s e => (listener_step hk s e).1) s0

/-- Whether the `i`-th event of the trace fires `toggle_recording`. -/
def firesAt (hk : HotkeyBinding) (s0 : ListenerState) (evs : List KeyEvent)
    (i : Nat) : Bool :=
  match evs[i]? with
  | none => false
  | some e => (listener_step hk (runListener hk s0 (evs.take i)) e).2

lemma fire_spec (hk : HotkeyBinding) (st : ListenerState) (e : KeyEvent)
    (h : (listener_step hk st e).2 = true) :
    ∃ k, e = .press k ∧ event_to_token k = some hk.key_token ∧
      st.hotkey_capture_active = false ∧
      hk.key_token ∉ st.active_tokens ∧ hk.modifiers ⊆ st.active_modifiers ∧
      (listener_step hk st e).1
        = { st with active_tokens := insert hk.key_token st.active_tokens,
                    recording := ¬st.recording } := by
  cases e with
  | release k => simp [listener_step] at h
  | press k =>
    simp only [listener_step, on_press] at h
    split at h
    · simp at h
    rename_i hesc
    split at h
    · simp at h
    rename_i hcap
    split at h
    · simp at h
    rename_i hmodeq
    split at h
    · simp at h
    rename_i token htk
    split at h
    · simp at h
    rename_i htne
    split at h
    · simp at h
    rename_i hmem
    split at h
    · rename_i hsub
      have htokeq : token = hk.key_token := not_not.mp (by simpa using htne)
      subst htokeq
      refine ⟨k, rfl, htk, by simpa using hcap, hmem, hsub, ?_⟩
      simp only [listener_step, on_press]
      rw [if_neg hesc, if_neg hcap]
      rw [hmodeq, htk]
      simp only []
      rw [if_neg htne, if_neg hmem, if_pos hsub]
    · simp at h

lemma press_tokens_superset (hk : HotkeyBinding) (st : ListenerState) (k : PKey) :
    st.active_tokens ⊆ (on_press hk st k).1.active_tokens := by
  unfold on_press
  split
  · exact Finset.Subset.refl _
  split
  · exact Finset.Subset.refl _
  split
  · exact Finset.Subset.refl _
  split
  · exact Finset.Subset.refl _
  split
  · exact Finset.Subset.refl _
  split
  · exact Finset.Subset.refl _
  split
  · exact Finset.subset_insert _ _
  · exact Finset.subset_insert _ _

lemma token_removed (hk : HotkeyBinding) (st : ListenerState) (e : KeyEvent)
    (hmem : hk.key_token ∈ st.active_tokens)
    (hout : hk.key_token ∉ (listener_step hk st e).1.active_tokens) :
    ∃ k, e = .release k ∧ event_to_token k = some hk.key_token := by
  cases e with
  | press k =>
    exact absurd (press_tokens_superset hk st k hmem) hout
  | release k =>
    refine ⟨k, rfl, ?_⟩
    by_contra hne
    apply hout
    simp only [listener_step, on_release]
    split
    · exact hmem
    · cases hmod : pkey_modifier_name k with
      | some m =>
        cases htk : event_to_token k with
        | none => exact hmem
        | some t =>
          exact Finset.mem_erase.mpr ⟨fun hh => hne (by rw [htk, hh]), hmem⟩
      | none =>
        cases htk : event_to_token k with
        | none => exact hmem
        | some t =>
          exact Finset.mem_erase.mpr ⟨fun hh => hne (by rw [htk, hh]), hmem⟩

lemma tokens_removed_in_run (hk : HotkeyBinding) :
    ∀ (l : List KeyEvent) (st : ListenerState),
      hk.key_token ∈ st.active_tokens →
      hk.key_token ∉
        (l.foldl (fun s e => (listener_step hk s e).1) st).active_tokens →
      ∃ idx k, idx < l.length ∧ l[idx]? = some (KeyEvent.release k) ∧
        event_to_token k = some hk.key_token := by
  intro l
  induction l with
  | nil =>
    intro st hmem hout
    exact absurd hmem hout
  | cons e l' ih =>
    intro st hmem hout
    by_cases h2 : hk.key_token ∈ (listener_step hk st e).1.active_tokens
    · rcases ih _ h2 (by simpa using hout) with ⟨idx, k, hlt, hget, htk⟩
      exact ⟨idx + 1, k, by simpa using hlt, by simpa using hget, htk⟩
    · rcases token_removed hk st e hmem h2 with ⟨k, rfl, htk⟩
      exact ⟨0, k, by simp, by simp, htk⟩

lemma runListener_take_succ (hk : HotkeyBinding) (s0 : ListenerState)
    (evs : List KeyEvent) (i : Nat) (e : KeyEvent) (hi : evs[i]? = some e) :
    runListener hk s0 (evs.take (i + 1))
      = (listener_step hk (runListener hk s0 (evs.take i)) e).1 := by
  unfold runListener
  rw [List.take_succ, hi]
  rw [List.foldl_append]
  rfl

/-- C8: in Listening mode, `toggle_recording` fires at most once per
physical press of the configured key token — between any two firing events
there is a key-up of the configured token (debounce: re-presses while held
never retrigger) — and it fires only when the held modifier set is a
superset of the binding's required modifiers. -/
theorem hotkey_debounce_C8 (hk : HotkeyBinding) (s0 : ListenerState)
    (evs : List KeyEvent) :
    (∀ i j, i < j → firesAt hk s0 evs i = true → firesAt hk s0 evs j = true →
      ∃ m k, i < m ∧ m < j ∧ evs[m]? = some (KeyEvent.release k) ∧
        event_to_token k = some hk.key_token) ∧
    (∀ i, firesAt hk s0 evs i = true →
      hk.modifiers ⊆ (runListener hk s0 (evs.take i)).active_modifiers) := by
  constructor
  · intro i j hij hfi hfj
    unfold firesAt at hfi hfj
    cases hei : evs[i]? with
    | none => rw [hei] at hfi; simp at hfi
    | some ei =>
      rw [hei] at hfi
      cases hej : evs[j]? with
      | none => rw [hej] at hfj; simp at hfj
      | some ej =>
        rw [hej] at hfj
        obtain ⟨ki, -, -, -, -, -, hstate⟩ := fire_spec hk _ ei hfi
        obtain ⟨kj, -, -, -, hnotj, -, -⟩ := fire_spec hk _ ej hfj
        have hmem1 : hk.key_token
            ∈ (runListener hk s0 (evs.take (i + 1))).active_tokens := by
          rw [runListener_take_succ hk s0 evs i ei hei, hstate]
          exact Finset.mem_insert_self _ _
        have hdecomp : evs.take j
            = evs.take (i + 1) ++ ((evs.take j).drop (i + 1)) := by
          conv_lhs => rw [← List.take_append_drop (i + 1) (evs.take j)]
          rw [List.take_take, min_eq_left (by omega)]
        have hrun : runListener hk s0 (evs.take j)
            = ((evs.take j).drop (i + 1)).foldl
                (fun s e => (listener_step hk s e).1)
                (runListener hk s0 (evs.take (i + 1))) := by
          conv_lhs => rw [hdecomp]
          unfold runListener
          rw [List.foldl_append]
        rcases tokens_removed_in_run hk ((evs.take j).drop (i + 1)) _ hmem1
            (by rw [← hrun]; exact hnotj) with ⟨idx, k, hlt, hget, htk⟩
        have hlen : idx + (i + 1) ≤ evs.length ∧ i + 1 + idx < j := by
          rw [List.length_drop, List.length_take] at hlt
          omega
        refine ⟨i + 1 + idx, k, by omega, hlen.2, ?_, htk⟩
        rw [List.getElem?_drop, List.getElem?_take] at hget
        rw [if_pos (by omega)] at hget
        exact hget
  · intro i hf
    unfold firesAt at hf
    cases hei : evs[i]? with
    | none => rw [hei] at hf; simp at hf
    | some ei =>
      rw [hei] at hf
      obtain ⟨k, -, -, -, -, hsub, -⟩ := fire_spec hk _ ei hf
      exact hsub

theorem hotkey_debounce_C8_witness :
    ∃ m k,
      0 < m ∧ m < 2 ∧
        ([KeyEvent.press (PKey.fkey 9), KeyEvent.release (PKey.fkey 9),
            KeyEvent.press (PKey.fkey 9)] : List KeyEvent)[m]?
          = some (KeyEvent.release k) ∧
        event_to_token k = some fallbackBinding.key_token :=
  (hotkey_debounce_C8 fallbackBinding ⟨∅, ∅, false, false⟩
      [KeyEvent.press (PKey.fkey 9), KeyEvent.release (PKey.fkey 9),
        KeyEvent.press (PKey.fkey 9)]).1 0 2 (by omega) (by decide) (by decide)

end WhisprBar
